import Mathlib

/-!
Verification of the CirrusSearch update-lag monitor (src/main.py).

The embedding models the program's pure data flow:

* the bounded intake deques (`deque(maxlen=5)` with right-append / right-pop),
* the sampler tick moving one most-recent item from the event queue to the
  final queue (`feed_final_q`),
* the raw string event filter (`input_filter`),
* the pending revision table, a dict from page title to `Revision`,
* the batched lookup `cirrusdump` (network modelled as an oracle together
  with a call counter) and `current_search_rev`,
* the polling cycle of `monitor_latency`: drain the queue into the table
  (`fill_revs`), query, and resolve entries whose indexed revision has
  caught up.

Machine integers of the source are modelled as `Int`; fallible operations
(JSON parsing, HTTP, dict `KeyError`) as `Except`.
-/

/-- Python exceptions that can escape the modelled code paths. -/
inductive PyErr
  | jsonError
  | httpError (code : Int)
  | keyError
  deriving DecidableEq, Repr

/-- `Revision` dataclass from the source: page title, expected revision id,
and the recent-changes timestamp of the edit. -/
structure Revision where
  page_title : String
  rev_id : Int
  rc_timestamp : Int
  deriving DecidableEq, Repr

/-- One append to a `deque(maxlen=cap)`: when the buffer is full the oldest
(leftmost) element is dropped; the new element always lands on the right. -/
def dequePush (cap : Nat) (buf : List α) (x : α) : List α :=
  if buf.length < cap then buf ++ [x] else buf.tail ++ [x]

/-- A whole sequence of appends into an initially given deque. -/
def dequePushAll (cap : Nat) (buf : List α) (xs : List α) : List α :=
  xs.foldl (dequePush cap) buf

/-- One tick of `feed_final_q`: pop the most recent (rightmost) element of
the event queue if any and append it to the final queue; an empty event
queue is not an error, the tick is skipped. -/
def samplerTick (eventQ finalQ : List α) : List α × List α :=
  match eventQ.getLast? with
  | none => (eventQ, finalQ)
  | some x => (eventQ.dropLast, dequePush 5 finalQ x)

/-- Substring test on raw payload strings, as Python's `in` on `str`. -/
def containsTag (tag payload : String) : Bool :=
  decide (tag.toList <:+: payload.toList)

/-- `input_filter` from `main`: cheap substring checks on the raw payload. -/
def input_filter (event_data : String) : Bool :=
  let is_wikidata := containsTag "\"domain\":\"www.wikidata.org\"" event_data
  let is_edit := containsTag "\"type\":\"edit\"" event_data
  let is_new := containsTag "\"type\":\"new\"" event_data
  is_wikidata && (is_edit || is_new)

/-- The pending revision table: Python dict from page title to `Revision`,
in insertion order, with at most one entry per key. -/
abbrev Table := List (String × Revision)

/-- Dict read, `revs[k]`, as an option. -/
def lookupRev : Table → String → Option Revision
  | [], _ => none
  | (k', v) :: rest, k => if k' = k then some v else lookupRev rest k

/-- Dict write `revs[k] = v`: replace the entry in place when the key is
present, otherwise append at the end. -/
def upsertRev : Table → String → Revision → Table
  | [], k, v => [(k, v)]
  | (k', v') :: rest, k, v =>
    if k' = k then (k, v) :: rest else (k', v') :: upsertRev rest k v

/-- Dict delete `del revs[k]`. -/
def eraseRev : Table → String → Table
  | [], _ => []
  | (k', v) :: rest, k =>
    if k' = k then eraseRev rest k else (k', v) :: eraseRev rest k

/-- Keys of the table in order, `revs.keys()`. -/
def keysOf (t : Table) : List String := t.map (fun p => p.1)

/-- Number of entries stored under a key. -/
def countKey (t : Table) (k : String) : Nat :=
  t.countP (fun p => decide (p.1 = k))

/-- A raw item sitting in the sampled queue, abstracted by its JSON parse
outcome: either it parses to the fields `fill_revs` reads, or it does not
parse at all. -/
inductive RawItem
  | valid (title : String) (revId : Int) (ts : Int)
  | malformed (text : String)
  deriving DecidableEq, Repr

/-- `fill_revs` from `monitor_latency`: pop every queued item (most recent
first), `json.loads` it — with no handler, so a malformed payload raises —
and upsert the parsed revision into the table. The queue list is given in
pop order (head = most recently appended). -/
def fill_revs : List RawItem → Table → Except PyErr Table
  | [], revs => .ok revs
  | .malformed _ :: _, _ => .error .jsonError
  | .valid t r ts :: rest, revs =>
    fill_revs rest (upsertRev revs t ⟨t, r, ts⟩)

/-- One per-shard cirrus document carrying `source.version`. -/
structure Source where
  version : Int
  deriving DecidableEq, Repr

structure CirrusDoc where
  source : Source
  deriving DecidableEq, Repr

/-- One page object of the API response: a title and, optionally, the list
of per-shard documents under the `cirrusdoc` key. -/
structure Page where
  title : String
  cirrusdoc : Option (List CirrusDoc)
  deriving DecidableEq, Repr

/-- `'|'.join(titles)`. -/
def joinPipe (titles : List String) : String :=
  String.intercalate "|" titles

/-- `cirrusdump`: short-circuit on an empty joined title string, otherwise
issue exactly one network request through the oracle `net` (which models
`requests.get` + `raise_for_status` + JSON decoding of `query.pages`).
Returns the result together with the number of network calls issued. -/
def cirrusdump (net : String → Except PyErr (List Page))
    (titles : List String) : Except PyErr (List Page) × Nat :=
  let joined := joinPipe titles
  if joined = "" then (.ok [], 0) else (net joined, 1)

/-- The list of `source.version` values over a page's cirrus documents
(`page.get('cirrusdoc', [])` followed by the comprehension). -/
def pageVersions (p : Page) : List Int :=
  (p.cirrusdoc.getD []).map (fun d => d.source.version)

/-- The indexed revision of one page: `max` of the version list, with the
empty-list `ValueError` caught and turned into `None`. -/
def pageIndexedRev (p : Page) : Option Int :=
  match pageVersions p with
  | [] => none
  | x :: xs => some (xs.foldl max x)

/-- `current_search_rev` applied to an already fetched page list: yield
`(title, indexed revision or None)` for every page. -/
def current_search_rev (pages : List Page) : List (String × Option Int) :=
  pages.map (fun p => (p.title, pageIndexedRev p))

/-- The resolution guard of `monitor_latency`, line 138:
`if cur_rev_id and cur_rev_id >= rev.rev_id`. Python truthiness makes both
`None` and `0` fail the first conjunct. -/
def resolveGuard (cur : Option Int) (expected : Int) : Bool :=
  match cur with
  | none => false
  | some r => (r != 0) && decide (expected ≤ r)

/-- The per-entry resolution step (spec name `resolveIfSatisfied`): look the
title up, and when the guard passes delete the entry and return it for
emission; otherwise leave the table untouched. (An absent key, a `KeyError`
in the source, is handled one level up in `resolveStep`.) -/
def resolveIfSatisfied (revs : Table) (title : String) (cur : Option Int) :
    Option Revision × Table :=
  match lookupRev revs title with
  | none => (none, revs)
  | some rev =>
    if resolveGuard cur rev.rev_id then (some rev, eraseRev revs title)
    else (none, revs)

/-- The RESOLVE phase of one polling cycle: walk the lookup results in
order, resolving satisfied entries and emitting `(rev, clock())` pairs.
A result title absent from the table is the source's `revs[page_title]`
`KeyError`. -/
def resolveStep : List (String × Option Int) → Table → Int →
    Except PyErr (List (Revision × Int) × Table)
  | [], revs, _ => .ok ([], revs)
  | (title, cur) :: rest, revs, now =>
    match lookupRev revs title with
    | none => .error .keyError
    | some _ =>
      match resolveIfSatisfied revs title cur with
      | (some rev, revs') =>
        match resolveStep rest revs' now with
        | .error e => .error e
        | .ok (emitted, revs'') => .ok ((rev, now) :: emitted, revs'')
      | (none, revs') => resolveStep rest revs' now

/-- One full cycle of the `monitor_latency` loop: DRAIN (`fill_revs`),
QUERY (`cirrusdump` over the table keys), RESOLVE. Any raised exception
propagates out; there is no retry. -/
def monitor_cycle (net : String → Except PyErr (List Page))
    (queue : List RawItem) (revs : Table) (now : Int) :
    Except PyErr (List (Revision × Int) × Table) :=
  match fill_revs queue revs with
  | .error e => .error e
  | .ok revs' =>
    match (cirrusdump net (keysOf revs')).1 with
    | .error e => .error e
    | .ok pages => resolveStep (current_search_rev pages) revs' now

/-- A payload marks its domain as the target domain: it contains the
`domain` tag for www.wikidata.org (the filter's notion of origin). -/
def marksWikidata (p : String) : Prop :=
  ("\"domain\":\"www.wikidata.org\"").toList <:+: p.toList

/-- A payload marks its type as an edit. -/
def marksEdit (p : String) : Prop :=
  ("\"type\":\"edit\"").toList <:+: p.toList

/-- A payload marks its type as a creation. -/
def marksNew (p : String) : Prop :=
  ("\"type\":\"new\"").toList <:+: p.toList

/-- A target-domain edit payload. -/
def payloadEdit : String :=
  "\x7b\"domain\":\"www.wikidata.org\",\"type\":\"edit\",\"title\":\"Q1\"\x7d"

/-- An edit payload from a non-target domain. -/
def payloadWrongDomain : String :=
  "\x7b\"domain\":\"en.wikipedia.org\",\"type\":\"edit\",\"title\":\"A\"\x7d"

/-- A target-domain payload whose type is a log action, not a content
change. -/
def payloadLog : String :=
  "\x7b\"domain\":\"www.wikidata.org\",\"type\":\"log\",\"title\":\"Q1\"\x7d"

/-! ### Helper lemmas about the bounded deque -/

theorem dequePush_length_le {α : Type} (cap : Nat) (hcap : 0 < cap)
    (buf : List α) (x : α) (h : buf.length ≤ cap) :
    (dequePush cap buf x).length ≤ cap := by
  unfold dequePush
  split
  · simp
    omega
  · cases buf with
    | nil => simp at *; omega
    | cons b bs => simp at *; omega

theorem dequePushAll_eq_drop {α : Type} (cap : Nat) (hcap : 0 < cap)
    (xs : List α) : ∀ (buf : List α), buf.length ≤ cap →
    dequePushAll cap buf xs = (buf ++ xs).drop (buf.length + xs.length - cap) := by
  induction xs with
  | nil =>
    intro buf h
    simp [dequePushAll]
    rw [Nat.sub_eq_zero_of_le h, List.drop_zero]
  | cons x xs ih =>
    intro buf h
    have hstep : dequePushAll cap buf (x :: xs) =
        dequePushAll cap (dequePush cap buf x) xs := by
      simp [dequePushAll]
    rw [hstep]
    by_cases hlt : buf.length < cap
    · have hpush : dequePush cap buf x = buf ++ [x] := by
        simp [dequePush, hlt]
      rw [hpush, ih (buf ++ [x]) (by simp; omega)]
      have hl : (buf ++ [x]) ++ xs = buf ++ x :: xs := by simp
      rw [hl]
      congr 1
      simp
      omega
    · have hbuf : buf.length = cap := by omega
      cases buf with
      | nil => simp at hbuf; omega
      | cons b bs =>
        have hpush : dequePush cap (b :: bs) x = bs ++ [x] := by
          unfold dequePush
          rw [if_neg hlt]
          rfl
        rw [hpush, ih (bs ++ [x]) (by simp at hbuf ⊢; omega)]
        have hl : (bs ++ [x]) ++ xs = bs ++ x :: xs := by simp
        rw [hl]
        have hi1 : (bs ++ [x]).length + xs.length - cap = xs.length := by
          simp at hbuf ⊢; omega
        have hi2 : (b :: bs).length + (x :: xs).length - cap = xs.length + 1 := by
          simp at hbuf ⊢; omega
        rw [hi1, hi2]
        have hl2 : (b :: bs) ++ x :: xs = b :: (bs ++ x :: xs) := by simp
        rw [hl2, List.drop_succ_cons]

/-- C4: intake boundedness. For any sequence of more than 5 pushes into the
`deque(maxlen=5)` intake buffer with no intervening pops, the size never
exceeds 5 at any intermediate point, the retained elements are exactly the
most recent 5 pushes in push order (the oldest is dropped on overflow), and
the final size is exactly 5. -/
theorem intake_boundedness (xs : List String) (h : 5 < xs.length) :
    (∀ n, (dequePushAll 5 ([] : List String) (xs.take n)).length ≤ 5) ∧
    dequePushAll 5 ([] : List String) xs = xs.drop (xs.length - 5) ∧
    (dequePushAll 5 ([] : List String) xs).length = 5 := by
  have hdrop : ∀ ys : List String,
      dequePushAll 5 [] ys = ys.drop (ys.length - 5) := by
    intro ys
    have hd := dequePushAll_eq_drop 5 (by omega) ys [] (by simp)
    simpa using hd
  refine ⟨?_, hdrop xs, ?_⟩
  · intro n
    rw [hdrop]
    simp [List.length_drop]
    omega
  · rw [hdrop]
    simp [List.length_drop]
    omega

/-- Witness for `intake_boundedness` at the 7-element push sequence
a..g: the buffer retains exactly the last five, c..g. -/
theorem intake_boundedness_witness :
    dequePushAll 5 ([] : List String) ["a", "b", "c", "d", "e", "f", "g"] =
      ["c", "d", "e", "f", "g"] ∧
    (dequePushAll 5 ([] : List String)
      ["a", "b", "c", "d", "e", "f", "g"]).length = 5 := by
  have h := intake_boundedness ["a", "b", "c", "d", "e", "f", "g"] (by decide)
  exact ⟨h.2.1.trans (by decide), h.2.2⟩

/-! ### Helper lemmas about the sampler tick -/

theorem getLast?_dequePush {α : Type} (cap : Nat) (buf : List α) (x : α) :
    (dequePush cap buf x).getLast? = some x := by
  unfold dequePush
  split
  · exact List.getLast?_concat _
  · exact List.getLast?_concat _

theorem getLast?_dequePushAll {α : Type} (cap : Nat) (es : List α) :
    ∀ (buf : List α) (x : α), es.getLast? = some x →
    (dequePushAll cap buf es).getLast? = some x := by
  induction es with
  | nil => intro buf x h; simp at h
  | cons e rest ih =>
    intro buf x h
    cases rest with
    | nil =>
      simp at h
      subst h
      have hone : dequePushAll cap buf [e] = dequePush cap buf e := by
        simp [dequePushAll]
      rw [hone]
      exact getLast?_dequePush cap buf e
    | cons e2 rest2 =>
      have hstep : dequePushAll cap buf (e :: e2 :: rest2) =
          dequePushAll cap (dequePush cap buf e) (e2 :: rest2) := by
        simp [dequePushAll]
      rw [hstep]
      exact ih (dequePush cap buf e) x (by rwa [List.getLast?_cons_cons] at h)

/-- C5: sampling fairness. On a sampler tick with an empty event buffer,
nothing is promoted and nothing fails; on a tick with a non-empty event
buffer, exactly the most recently inserted element is popped from the event
buffer and appended to the final buffer; and after any non-empty burst of
arrivals pushed into the event buffer, the most recently inserted element is
exactly the last-arrived one. -/
theorem sampling_fairness (A B : List String) :
    (A = [] → samplerTick A B = (A, B)) ∧
    (∀ x, A.getLast? = some x →
      samplerTick A B = (A.dropLast, dequePush 5 B x)) ∧
    (∀ (es A0 : List String) (x : String), es.getLast? = some x →
      (dequePushAll 5 A0 es).getLast? = some x) := by
  refine ⟨?_, ?_, ?_⟩
  · intro h
    subst h
    rfl
  · intro x hx
    unfold samplerTick
    rw [hx]
  · intro es A0 x h
    exact getLast?_dequePushAll 5 es A0 x h

/-- Witness for `sampling_fairness`: a tick on event buffer [a, b] promotes
exactly b; a tick on an empty event buffer is a no-op. -/
theorem sampling_fairness_witness :
    samplerTick (["a", "b"] : List String) [] = (["a"], ["b"]) ∧
    samplerTick ([] : List String) ["z"] = ([], ["z"]) := by
  constructor
  · have h := (sampling_fairness ["a", "b"] []).2.1 "b" rfl
    rw [h]
    rfl
  · exact (sampling_fairness [] ["z"]).1 rfl

/-- C3: filter correctness. `input_filter` accepts a payload iff it marks the
target domain and marks its type as an edit or a creation; in particular it
accepts a wikidata edit payload and rejects a foreign-domain payload and a
`type:log` payload. -/
theorem filter_correctness :
    (∀ p : String, input_filter p = true ↔
      marksWikidata p ∧ (marksEdit p ∨ marksNew p)) ∧
    input_filter payloadEdit = true ∧
    input_filter payloadWrongDomain = false ∧
    input_filter payloadLog = false := by
  refine ⟨?_, by decide, by decide, by decide⟩
  intro p
  simp [input_filter, containsTag, marksWikidata, marksEdit, marksNew,
    Bool.and_eq_true, Bool.or_eq_true, decide_eq_true_iff]

/-! ### Helper lemmas about the pending table -/

theorem lookupRev_upsertRev_self (t : Table) (k : String) (v : Revision) :
    lookupRev (upsertRev t k v) k = some v := by
  induction t with
  | nil => simp [upsertRev, lookupRev]
  | cons p rest ih =>
    obtain ⟨k', v'⟩ := p
    by_cases hk : k' = k
    · subst hk
      simp [upsertRev, lookupRev]
    · simp [upsertRev, lookupRev, hk, ih]

theorem mem_keysOf_upsertRev (t : Table) (k a : String) (v : Revision) :
    a ∈ keysOf (upsertRev t k v) ↔ a ∈ keysOf t ∨ a = k := by
  induction t with
  | nil => simp [upsertRev, keysOf]
  | cons p rest ih =>
    obtain ⟨k', v'⟩ := p
    by_cases hk : k' = k
    · subst hk
      simp [upsertRev, keysOf]
      tauto
    · simp [upsertRev, keysOf, hk] at ih ⊢
      tauto

theorem keysOf_cons (k : String) (v : Revision) (rest : Table) :
    keysOf ((k, v) :: rest) = k :: keysOf rest := rfl

theorem countKey_cons (k' : String) (v : Revision) (rest : Table) (k : String) :
    countKey ((k', v) :: rest) k = countKey rest k + if k' = k then 1 else 0 := by
  simp [countKey, List.countP_cons]

theorem nodup_keysOf_upsertRev (t : Table) (k : String) (v : Revision) :
    (keysOf t).Nodup → (keysOf (upsertRev t k v)).Nodup := by
  induction t with
  | nil =>
    intro _
    simp [upsertRev, keysOf]
  | cons p rest ih =>
    obtain ⟨k', v'⟩ := p
    intro h
    rw [keysOf_cons, List.nodup_cons] at h
    obtain ⟨hnot, hrest⟩ := h
    by_cases hk : k' = k
    · subst hk
      have hup : upsertRev ((k', v') :: rest) k' v = (k', v) :: rest := by
        simp [upsertRev]
      rw [hup, keysOf_cons, List.nodup_cons]
      exact ⟨hnot, hrest⟩
    · have hup : upsertRev ((k', v') :: rest) k v =
          (k', v') :: upsertRev rest k v := by
        simp [upsertRev, hk]
      rw [hup, keysOf_cons, List.nodup_cons]
      refine ⟨?_, ih hrest⟩
      intro hmem
      rcases (mem_keysOf_upsertRev rest k k' v).1 hmem with hin | heq
      · exact hnot hin
      · exact hk heq

theorem countKey_eq_zero_of_not_mem (t : Table) (k : String) :
    k ∉ keysOf t → countKey t k = 0 := by
  induction t with
  | nil => intro _; rfl
  | cons p rest ih =>
    obtain ⟨k', v'⟩ := p
    intro h
    rw [keysOf_cons, List.mem_cons] at h
    push_neg at h
    rw [countKey_cons, ih h.2, if_neg (fun he => h.1 he.symm)]

theorem countKey_upsertRev (t : Table) (k : String) (v : Revision) :
    (keysOf t).Nodup → countKey (upsertRev t k v) k = 1 := by
  induction t with
  | nil =>
    intro _
    simp [upsertRev, countKey, List.countP_cons]
  | cons p rest ih =>
    obtain ⟨k', v'⟩ := p
    intro h
    rw [keysOf_cons, List.nodup_cons] at h
    obtain ⟨hnot, hrest⟩ := h
    by_cases hk : k' = k
    · subst hk
      have hup : upsertRev ((k', v') :: rest) k' v = (k', v) :: rest := by
        simp [upsertRev]
      rw [hup, countKey_cons, countKey_eq_zero_of_not_mem rest k' hnot, if_pos rfl]
    · have hup : upsertRev ((k', v') :: rest) k v =
          (k', v') :: upsertRev rest k v := by
        simp [upsertRev, hk]
      rw [hup, countKey_cons, ih hrest, if_neg hk]

/-- C6: single-pending-entry invariant with overwrite-on-newer semantics.
Upserting preserves the at-most-one-entry-per-key invariant, and two
successive upserts for the same subject leave exactly one entry for it,
holding the later revision. -/
theorem single_pending_overwrite (t : Table) (k : String) (v₁ v₂ : Revision)
    (h : (keysOf t).Nodup) :
    (keysOf (upsertRev t k v₁)).Nodup ∧
    (keysOf (upsertRev (upsertRev t k v₁) k v₂)).Nodup ∧
    lookupRev (upsertRev (upsertRev t k v₁) k v₂) k = some v₂ ∧
    countKey (upsertRev (upsertRev t k v₁) k v₂) k = 1 := by
  have h1 := nodup_keysOf_upsertRev t k v₁ h
  exact ⟨h1, nodup_keysOf_upsertRev _ k v₂ h1, lookupRev_upsertRev_self _ k v₂,
    countKey_upsertRev _ k v₂ h1⟩

/-- Witness for `single_pending_overwrite`: upserting X at revision 5 then
revision 7 leaves exactly one entry for X, at expected revision 7. -/
theorem single_pending_overwrite_witness :
    lookupRev (upsertRev (upsertRev [] "X" ⟨"X", 5, 1⟩) "X" ⟨"X", 7, 2⟩) "X" =
      some ⟨"X", 7, 2⟩ ∧
    countKey (upsertRev (upsertRev [] "X" ⟨"X", 5, 1⟩) "X" ⟨"X", 7, 2⟩) "X" = 1 := by
  have h := single_pending_overwrite [] "X" ⟨"X", 5, 1⟩ ⟨"X", 7, 2⟩ (by simp [keysOf])
  exact ⟨h.2.2.1, h.2.2.2⟩

/-- C7: empty-batch short-circuit. On an empty title set `cirrusdump`
returns the empty page mapping and issues zero network calls, for every
possible network oracle. -/
theorem empty_batch_short_circuit (net : String → Except PyErr (List Page)) :
    cirrusdump net [] = (.ok [], 0) := rfl

/-! ### Helper lemmas about the running maximum -/

theorem le_foldl_max (xs : List Int) : ∀ a : Int, a ≤ xs.foldl max a := by
  induction xs with
  | nil => intro a; exact le_refl a
  | cons x xs ih =>
    intro a
    rw [List.foldl_cons]
    exact le_trans (le_max_left a x) (ih (max a x))

theorem foldl_max_mem (xs : List Int) :
    ∀ a : Int, xs.foldl max a = a ∨ xs.foldl max a ∈ xs := by
  induction xs with
  | nil => intro a; exact Or.inl rfl
  | cons x xs ih =>
    intro a
    rw [List.foldl_cons]
    rcases ih (max a x) with h | h
    · rcases max_choice a x with hm | hm
      · exact Or.inl (h.trans hm)
      · exact Or.inr (by rw [h, hm]; exact List.mem_cons_self x xs)
    · exact Or.inr (List.mem_cons_of_mem x h)

theorem mem_le_foldl_max (xs : List Int) :
    ∀ (a v : Int), v ∈ xs → v ≤ xs.foldl max a := by
  induction xs with
  | nil => intro a v h; simp at h
  | cons x xs ih =>
    intro a v h
    rw [List.foldl_cons]
    rcases List.mem_cons.1 h with rfl | hmem
    · exact le_trans (le_max_right a v) (le_foldl_max xs (max a v))
    · exact ih (max a x) v hmem

/-- C9: indexed-revision extraction. When a page's document list is absent
or empty the indexed revision is `none` (reported as not yet indexed, no
error is raised); when `pageIndexedRev` reports a value it is exactly the
maximum of the `source.version` values across the page's documents; and a
non-empty document list always yields a value. -/
theorem indexed_revision_extraction (p : Page) :
    (p.cirrusdoc = none ∨ p.cirrusdoc = some [] → pageIndexedRev p = none) ∧
    (∀ r, pageIndexedRev p = some r →
      r ∈ pageVersions p ∧ ∀ v ∈ pageVersions p, v ≤ r) ∧
    (pageVersions p ≠ [] → ∃ r, pageIndexedRev p = some r) := by
  refine ⟨?_, ?_, ?_⟩
  · intro h
    rcases h with h | h <;> simp [pageIndexedRev, pageVersions, h]
  · intro r hr
    cases hv : pageVersions p with
    | nil => simp [pageIndexedRev, hv] at hr
    | cons x xs =>
      simp [pageIndexedRev, hv] at hr
      constructor
      · rw [← hr]
        rcases foldl_max_mem xs x with h | h
        · rw [h]; exact List.mem_cons_self x xs
        · exact List.mem_cons_of_mem x h
      · intro v hvmem
        rw [← hr]
        rcases List.mem_cons.1 hvmem with rfl | hmem
        · exact le_foldl_max xs v
        · exact mem_le_foldl_max xs x v hmem
  · intro h
    cases hv : pageVersions p with
    | nil => exact absurd hv h
    | cons x xs => exact ⟨xs.foldl max x, by simp [pageIndexedRev, hv]⟩

/-- Witness for `indexed_revision_extraction`: over shard versions 3, 7, 5
the reported indexed revision 7 is a member and an upper bound; a page with
no `cirrusdoc` key reports `none`. -/
theorem indexed_revision_extraction_witness :
    (7 : Int) ∈ pageVersions ⟨"Q1", some [⟨⟨3⟩⟩, ⟨⟨7⟩⟩, ⟨⟨5⟩⟩]⟩ ∧
    (∀ v ∈ pageVersions ⟨"Q1", some [⟨⟨3⟩⟩, ⟨⟨7⟩⟩, ⟨⟨5⟩⟩]⟩, v ≤ 7) ∧
    pageIndexedRev ⟨"Q2", none⟩ = none := by
  refine ⟨?_, ?_, ?_⟩
  · exact ((indexed_revision_extraction ⟨"Q1", some [⟨⟨3⟩⟩, ⟨⟨7⟩⟩, ⟨⟨5⟩⟩]⟩).2.1
      7 (by decide)).1
  · exact ((indexed_revision_extraction ⟨"Q1", some [⟨⟨3⟩⟩, ⟨⟨7⟩⟩, ⟨⟨5⟩⟩]⟩).2.1
      7 (by decide)).2
  · exact (indexed_revision_extraction ⟨"Q2", none⟩).1 (Or.inl rfl)

/-- C1 counterexample: with a pending entry at expected revision 0 and the
lookup reporting indexed revision 0, the reported revision is present and
`>=` the expected one, yet the loop's guard (Python truthiness of `0`)
leaves the entry pending and emits nothing — so resolution is not governed
by "present and `>=` expected" alone. -/
theorem resolution_claim_counterexample :
    lookupRev [("X", ⟨"X", 0, 100⟩)] "X" = some ⟨"X", 0, 100⟩ ∧
    (some (0 : Int)).isSome = true ∧
    (0 : Int) ≥ (0 : Int) ∧
    resolveIfSatisfied [("X", ⟨"X", 0, 100⟩)] "X" (some 0) =
      (none, [("X", ⟨"X", 0, 100⟩)]) := by
  decide

/-- C1 (amended): resolution correctness of the pending table. For a
pending entry with expected revision E, the entry is removed and emitted
iff the reported indexed revision R is present, nonzero, and R >= E; when R
is unknown, zero, or below E, the table is left untouched and nothing is
emitted. -/
theorem resolution_correctness_amended (revs : Table) (title : String)
    (rev : Revision) (cur : Option Int)
    (h : lookupRev revs title = some rev) :
    (resolveIfSatisfied revs title cur = (some rev, eraseRev revs title) ↔
      ∃ r, cur = some r ∧ r ≠ 0 ∧ rev.rev_id ≤ r) ∧
    ((∀ r, cur = some r → r = 0 ∨ r < rev.rev_id) →
      resolveIfSatisfied revs title cur = (none, revs)) := by
  cases cur with
  | none =>
    constructor
    · constructor
      · intro hres
        simp [resolveIfSatisfied, h, resolveGuard, Prod.ext_iff] at hres
      · rintro ⟨r, hr, _⟩
        exact absurd hr (by simp)
    · intro _
      simp [resolveIfSatisfied, h, resolveGuard]
  | some r =>
    by_cases hr0 : r = 0
    · subst hr0
      constructor
      · constructor
        · intro hres
          simp [resolveIfSatisfied, h, resolveGuard, Prod.ext_iff] at hres
        · rintro ⟨r', hr', hne, _⟩
          injection hr' with he
          exact absurd he.symm hne
      · intro _
        simp [resolveIfSatisfied, h, resolveGuard]
    · by_cases hle : rev.rev_id ≤ r
      · have hguard : resolveGuard (some r) rev.rev_id = true := by
          simp [resolveGuard, hr0, hle]
        constructor
        · constructor
          · intro _
            exact ⟨r, rfl, hr0, hle⟩
          · intro _
            simp [resolveIfSatisfied, h, hguard]
        · intro hcontra
          rcases hcontra r rfl with h0 | hlt
          · exact absurd h0 hr0
          · omega
      · have hguard : resolveGuard (some r) rev.rev_id = false := by
          simp [resolveGuard, hle]
        constructor
        · constructor
          · intro hres
            simp [resolveIfSatisfied, h, hguard, Prod.ext_iff] at hres
          · rintro ⟨r', hr', _, hle'⟩
            injection hr' with he
            subst he
            exact absurd hle' hle
        · intro _
          simp [resolveIfSatisfied, h, hguard]

/-- Witness for `resolution_correctness_amended`: against a pending
expected revision 7, a reported revision 7 resolves and removes the entry,
while 6 and unknown leave it pending with nothing emitted. -/
theorem resolution_correctness_amended_witness :
    resolveIfSatisfied [("X", ⟨"X", 7, 100⟩)] "X" (some 7) =
      (some ⟨"X", 7, 100⟩, []) ∧
    resolveIfSatisfied [("X", ⟨"X", 7, 100⟩)] "X" (some 6) =
      (none, [("X", ⟨"X", 7, 100⟩)]) ∧
    resolveIfSatisfied [("X", ⟨"X", 7, 100⟩)] "X" none =
      (none, [("X", ⟨"X", 7, 100⟩)]) := by
  refine ⟨?_, ?_, ?_⟩
  · have h := (resolution_correctness_amended [("X", ⟨"X", 7, 100⟩)] "X"
      ⟨"X", 7, 100⟩ (some 7) (by decide)).1.mpr ⟨7, rfl, by decide, by decide⟩
    exact h.trans (by decide)
  · exact (resolution_correctness_amended [("X", ⟨"X", 7, 100⟩)] "X"
      ⟨"X", 7, 100⟩ (some 6) (by decide)).2
      (fun r hr => by injection hr with he; subst he; decide)
  · exact (resolution_correctness_amended [("X", ⟨"X", 7, 100⟩)] "X"
      ⟨"X", 7, 100⟩ none (by decide)).2
      (fun r hr => absurd hr (by simp))

/-- C10: a reported indexed revision equal to 0 is treated as unresolved —
the pending entry is kept and nothing is emitted — even when the expected
revision id is <= 0, because the guard tests the reported value for Python
truthiness before comparing. -/
theorem zero_revision_unresolved (revs : Table) (title : String)
    (rev : Revision) (now : Int) (h : lookupRev revs title = some rev)
    (_he : rev.rev_id ≤ 0) :
    resolveIfSatisfied revs title (some 0) = (none, revs) ∧
    resolveStep [(title, some 0)] revs now = .ok ([], revs) := by
  have hguard : resolveGuard (some 0) rev.rev_id = false := by
    simp [resolveGuard]
  have h1 : resolveIfSatisfied revs title (some 0) = (none, revs) := by
    simp [resolveIfSatisfied, h, hguard]
  refine ⟨h1, ?_⟩
  simp [resolveStep, h, h1]

/-- Witness for `zero_revision_unresolved`: expected revision 0, lookup
reports 0 — the cycle emits nothing and keeps the entry. -/
theorem zero_revision_unresolved_witness :
    resolveStep [("X", some 0)] [("X", ⟨"X", 0, 10⟩)] 99 =
      .ok ([], [("X", ⟨"X", 0, 10⟩)]) :=
  (zero_revision_unresolved [("X", ⟨"X", 0, 10⟩)] "X" ⟨"X", 0, 10⟩ 99
    (by decide) (by decide)).2

/-- C8: fatal lookup failure. When the drain phase succeeds, the pending
table is non-empty, and the network oracle reports an HTTP-level error for
the batched query, the whole polling cycle returns that error: nothing is
retried, nothing is emitted, and the loop halts. -/
theorem lookup_failure_fatal (net : String → Except PyErr (List Page))
    (queue : List RawItem) (revs revs' : Table) (now : Int) (e : PyErr)
    (hfill : fill_revs queue revs = .ok revs')
    (hjoin : joinPipe (keysOf revs') ≠ "")
    (hnet : net (joinPipe (keysOf revs')) = .error e) :
    monitor_cycle net queue revs now = .error e := by
  have hc : (cirrusdump net (keysOf revs')).1 = .error e := by
    simp [cirrusdump, hjoin, hnet]
  simp [monitor_cycle, hfill, hc]

/-- Witness for `lookup_failure_fatal`: one pending entry for Q1 and a
network oracle that always fails with HTTP 500. -/
theorem lookup_failure_fatal_witness :
    monitor_cycle (fun _ => .error (.httpError 500)) []
      [("Q1", ⟨"Q1", 1, 0⟩)] 50 = .error (.httpError 500) :=
  lookup_failure_fatal (fun _ => .error (.httpError 500)) []
    [("Q1", ⟨"Q1", 1, 0⟩)] [("Q1", ⟨"Q1", 1, 0⟩)] 50 (.httpError 500)
    rfl (by decide) rfl

/-- C2 (code behavior at the failing input): a malformed payload in the
sampled queue makes `fill_revs` raise the JSON error instead of skipping
the item — the polling loop crashes, and any older queued items behind it
are not processed; a well-formed item alone is processed normally. -/
theorem malformed_payload_crashes_loop :
    fill_revs [.malformed "not json"] [] = .error .jsonError ∧
    fill_revs [.malformed "not json", .valid "Q1" 5 0] [] = .error .jsonError ∧
    fill_revs [.valid "Q1" 5 0] [] = .ok [("Q1", ⟨"Q1", 5, 0⟩)] :=
  ⟨rfl, rfl, rfl⟩
